import Mathlib

/-!
# Verification of the buildprize-game quiz backend core

A shallow embedding of the Go quiz-game backend (`internal/models/game.go`,
`internal/services/game_service.go`, `internal/hub/hub.go`) together with
proofs of the testable properties of its specification.

Modelling conventions:
* Go `time.Time` values are Unix-millisecond timestamps, embedded as `Int`;
  the current wall-clock time is passed explicitly as a `now` parameter.
* Go `int` / `int64` are embedded as `Int`; Go integer division (which
  truncates toward zero) is `Int.tdiv`.
* Fallible operations return `Except GErr`, mirroring the Go `error` returns;
  an error return carries no updated state, mirroring the Go code's
  check-before-mutate structure.
* The hub's `lobbies` map is embedded as an association list keyed by
  lobby id; the in-place mutation of a `*models.Lobby` shared between hub
  and service is embedded by writing the updated lobby back at its key.
-/

namespace Buildprize

/-- `models.GameState` (`game.go`): `waiting`, `in_progress`, `finished`. -/
inductive GameState where
  | Waiting
  | InProgress
  | Finished
deriving DecidableEq, Repr

/-- `models.Player` (`game.go`): score and streak are Go `int`. -/
structure Player where
  id : String
  username : String
  score : Int
  streak : Int
  isReady : Bool
deriving DecidableEq, Repr

/-- `models.Question` (`game.go`). -/
structure Question where
  id : String
  text : String
  options : List String
  correct : Int
  category : String
deriving DecidableEq, Repr

/-- `models.Lobby` (`game.go`, plus the `FinishedAt` field set by
`endGame` in `game_service.go`).  Timestamps are Unix milliseconds. -/
structure Lobby where
  id : String
  name : String
  players : List Player
  state : GameState
  currentQ : Option Question
  round : Int
  maxRounds : Int
  createdAt : Int
  startedAt : Option Int
  questionEnd : Option Int
  finishedAt : Option Int
deriving DecidableEq, Repr

/-- `models.NewLobby` (`game.go` lines 58-68): fresh `Waiting` lobby with no
players, no question and `Round = 0`.  The generated UUID is a parameter. -/
def NewLobby (id name : String) (maxRounds : Int) (now : Int) : Lobby :=
  { id := id
    name := name
    players := []
    state := .Waiting
    currentQ := none
    round := 0
    maxRounds := maxRounds
    createdAt := now
    startedAt := none
    questionEnd := none
    finishedAt := none }

/-- The player record built by `Lobby.AddPlayer` (`game.go` lines 70-80):
zero score, zero streak, not ready.  The generated UUID is a parameter. -/
def mkPlayer (pid username : String) : Player :=
  { id := pid, username := username, score := 0, streak := 0, isReady := false }

/-- `Lobby.AddPlayer` (`game.go` lines 70-80): appends the new player. -/
def Lobby.AddPlayer (l : Lobby) (username pid : String) : Lobby × Player :=
  let p := mkPlayer pid username
  ({ l with players := l.players ++ [p] }, p)

/-- The list mutation of `Lobby.RemovePlayer` (`game.go` lines 82-90):
remove the first player whose id matches. -/
def removeFirst (ps : List Player) (pid : String) : List Player :=
  match ps with
  | [] => []
  | p :: rest => if p.id == pid then rest else p :: removeFirst rest pid

/-- `Lobby.GetPlayer` (`game.go` lines 92-99): first player with the id. -/
def Lobby.GetPlayer (l : Lobby) (pid : String) : Option Player :=
  l.players.find? (fun p => p.id == pid)

/-- `Lobby.CanStart` (`game.go` lines 101-103). -/
def Lobby.CanStart (l : Lobby) : Bool :=
  2 ≤ l.players.length && l.state == .Waiting

/-- `Lobby.StartGame` (`game.go` lines 105-110). -/
def Lobby.StartGameL (l : Lobby) (now : Int) : Lobby :=
  { l with state := .InProgress, round := 1, startedAt := some now }

/-- `Lobby.NextRound` (`game.go` lines 112-117). -/
def Lobby.NextRound (l : Lobby) : Lobby :=
  let r := l.round + 1
  { l with round := r, state := if l.maxRounds < r then .Finished else l.state }

/-- `Lobby.SetQuestion` (`game.go` lines 119-123): deadline is
`now + duration` (duration in milliseconds). -/
def Lobby.SetQuestion (l : Lobby) (q : Question) (durationMs now : Int) : Lobby :=
  { l with currentQ := some q, questionEnd := some (now + durationMs) }

/-- `Lobby.IsQuestionActive` (`game.go` lines 125-127): a question is set,
a deadline is set, and `now` is strictly before the deadline. -/
def Lobby.IsQuestionActive (l : Lobby) (now : Int) : Bool :=
  match l.currentQ, l.questionEnd with
  | some _, some deadline => now < deadline
  | _, _ => false

/-- The typed errors of `services/errors.go`. -/
inductive GErr where
  | lobbyNotFound
  | lobbyFull
  | gameInProgress
  | playerNotFound
  | cannotStartGame
  | questionNotActive
deriving DecidableEq, Repr

/-- `GameService.calculateScore` (`game_service.go` lines 180-190).
Wrong answer scores 0; a correct answer scores
`baseScore (100) + timeBonus + accuracyBonus (25)` with
`timeBonus = int(math.Max(0, float64(50-(responseTime/1000))))`.
Go `/` on `int64` truncates toward zero, hence `Int.tdiv`.  The
`float64` round-trip in the source is value-preserving for every
magnitude below `2^53` (in particular on every bound and input used in the
theorems below) and sign-preserving everywhere, so it is elided. -/
def calculateScore (question : Question) (answer : Int) (responseTime : Int) : Int :=
  if answer ≠ question.correct then 0
  else
    let baseScore : Int := 100
    let timeBonus : Int := max 0 (50 - responseTime.tdiv 1000)
    let accuracyBonus : Int := 25
    baseScore + timeBonus + accuracyBonus

/-- Update the first player in the list whose id matches, mirroring the Go
mutation through the pointer returned by `GetPlayer`. -/
def updateFirst (ps : List Player) (pid : String) (f : Player → Player) : List Player :=
  match ps with
  | [] => []
  | p :: rest => if p.id == pid then f p :: rest else p :: updateFirst rest pid f

/-- The mutations `player.Score += score; streak update` performed by
`GameService.SubmitAnswer` (`game_service.go` lines 160-167) on the player
found by `GetPlayer`. -/
def applyAnswer (l : Lobby) (pid : String) (answer responseTime : Int) : Lobby :=
  match l.currentQ with
  | none => l
  | some q =>
      { l with players := updateFirst l.players pid (fun p =>
          { p with
            score := p.score + calculateScore q answer responseTime
            streak := if answer == q.correct then p.streak + 1 else 0 }) }

/-- The lobby-level core of `GameService.SubmitAnswer`
(`game_service.go` lines 150-167): reject unless a question is active,
reject an unknown player, otherwise apply the score/streak update. -/
def submitLobby (l : Lobby) (pid : String) (answer responseTime now : Int) :
    Except GErr Lobby :=
  if ¬ l.IsQuestionActive now then .error .questionNotActive
  else
    match l.GetPlayer pid with
    | none => .error .playerNotFound
    | some _ => .ok (applyAnswer l pid answer responseTime)

/-- The hub's `lobbies` map (`hub.go`), as an association list. -/
abbrev HubMap := List (String × Lobby)

/-- `Hub.GetLobbyHub` followed by `GetLobby`: look a lobby up by id. -/
def findLobby (h : HubMap) (lid : String) : Option Lobby :=
  (h.find? (fun e => e.1 == lid)).map (fun e => e.2)

/-- Write an updated lobby back at its key (the Go code mutates the
`*models.Lobby` in place, so the hub entry observes the update). -/
def setLobby (h : HubMap) (lid : String) (l : Lobby) : HubMap :=
  match h with
  | [] => []
  | e :: rest => if e.1 == lid then (lid, l) :: rest else e :: setLobby rest lid l

/-- Remove a hub entry (`Hub.RemoveLobbyHub`). -/
def removeLobby (h : HubMap) (lid : String) : HubMap :=
  h.filter (fun e => ¬ e.1 == lid)

/-- `GameService.JoinLobby` (`game_service.go` lines 65-92): not-found,
capacity (`len >= 8`) and state (`!= Waiting`) checks in source order, then
`AddPlayer`, then `SaveLobby` whose outcome `saveErr` is discarded. -/
def JoinLobby (h : HubMap) (lid username newPid : String) (saveErr : Bool) :
    Except GErr (HubMap × Lobby × Player) :=
  match findLobby h lid with
  | none => .error .lobbyNotFound
  | some l =>
      if 8 ≤ l.players.length then .error .lobbyFull
      else if l.state ≠ .Waiting then .error .gameInProgress
      else
        let r := l.AddPlayer username newPid
        .ok (setLobby h lid r.1, r.1, r.2)

/-- `GameService.LeaveLobby` (`game_service.go` lines 94-119): remove the
player (error if absent), save (outcome discarded), and tear the lobby
down when the player list becomes empty. -/
def LeaveLobby (h : HubMap) (lid pid : String) (saveErr : Bool) :
    Except GErr HubMap :=
  match findLobby h lid with
  | none => .error .lobbyNotFound
  | some l =>
      if (l.GetPlayer pid).isNone then .error .playerNotFound
      else
        let l2 := { l with players := removeFirst l.players pid }
        if l2.players.length == 0 then .ok (removeLobby h lid)
        else .ok (setLobby h lid l2)

/-- `GameService.endGame` (`game_service.go` lines 244-270), state part:
set `Finished` and the finish timestamp.  (Round and players untouched.) -/
def endGame (l : Lobby) (now : Int) : Lobby :=
  { l with state := .Finished, finishedAt := some now }

/-- `GameService.startNextQuestion` (`game_service.go` lines 192-221),
state part: end the game once `Round > MaxRounds`, otherwise set a random
question with a 15-second (15000 ms) deadline. -/
def startNextQuestion (l : Lobby) (q : Question) (now : Int) : Lobby :=
  if l.maxRounds < l.round then endGame l now
  else l.SetQuestion q 15000 now

/-- `GameService.endQuestion` (`game_service.go` lines 223-242), state
part: clear the current question and deadline, then `NextRound`. -/
def endQuestion (l : Lobby) : Lobby :=
  Lobby.NextRound { l with currentQ := none, questionEnd := none }

/-- `GameService.StartGame` (`game_service.go` lines 121-142): not-found
and `CanStart` checks, then `Lobby.StartGame` and the first
`startNextQuestion` (`t0`, `t1` are the wall-clock instants of the two
steps; `saveErr` is the discarded persistence outcome). -/
def StartGame (h : HubMap) (lid : String) (q : Question) (t0 t1 : Int)
    (saveErr : Bool) : Except GErr HubMap :=
  match findLobby h lid with
  | none => .error .lobbyNotFound
  | some l =>
      if ¬ l.CanStart then .error .cannotStartGame
      else .ok (setLobby h lid (startNextQuestion (l.StartGameL t0) q t1))

/-- `GameService.SubmitAnswer` (`game_service.go` lines 144-178): hub
lookup then the lobby-level submission; `saveErr` is the discarded
persistence outcome. -/
def SubmitAnswer (h : HubMap) (lid pid : String) (answer responseTime now : Int)
    (saveErr : Bool) : Except GErr HubMap :=
  match findLobby h lid with
  | none => .error .lobbyNotFound
  | some l => (submitLobby l pid answer responseTime now).map (setLobby h lid)

/-! ## Helper lemmas -/

theorem updateFirst_find {ps : List Player} {pid : String} (f : Player → Player)
    (hf : ∀ x, (f x).id = x.id) {p : Player}
    (hp : ps.find? (fun x => x.id == pid) = some p) :
    (updateFirst ps pid f).find? (fun x => x.id == pid) = some (f p) := by
  induction ps with
  | nil => simp [List.find?] at hp
  | cons a rest ih =>
      cases h : (a.id == pid) with
      | true =>
          simp [List.find?, h] at hp
          subst hp
          simp [updateFirst, h, List.find?, hf]
      | false =>
          simp only [List.find?, h] at hp
          simp only [updateFirst, h, Bool.false_eq_true, if_false, List.find?]
          exact ih hp

theorem findLobby_setLobby {h : HubMap} {lid : String} {l0 : Lobby}
    (hx : findLobby h lid = some l0) (l : Lobby) :
    findLobby (setLobby h lid l) lid = some l := by
  induction h with
  | nil => simp [findLobby, List.find?] at hx
  | cons e rest ih =>
      cases he : (e.1 == lid) with
      | true => simp [setLobby, he, findLobby, List.find?]
      | false =>
          simp only [findLobby, List.find?, he] at hx
          simp only [setLobby, he, Bool.false_eq_true, if_false, findLobby,
            List.find?]
          exact ih hx

theorem applyAnswer_fields (l : Lobby) (pid : String) (a rt : Int) :
    (applyAnswer l pid a rt).state = l.state ∧
    (applyAnswer l pid a rt).currentQ = l.currentQ ∧
    (applyAnswer l pid a rt).questionEnd = l.questionEnd ∧
    (applyAnswer l pid a rt).round = l.round ∧
    (applyAnswer l pid a rt).maxRounds = l.maxRounds := by
  unfold applyAnswer
  cases hq : l.currentQ <;> simp [hq]

theorem applyAnswer_active (l : Lobby) (pid : String) (a rt now : Int) :
    (applyAnswer l pid a rt).IsQuestionActive now = l.IsQuestionActive now := by
  unfold Lobby.IsQuestionActive
  rw [(applyAnswer_fields l pid a rt).2.1, (applyAnswer_fields l pid a rt).2.2.1]

theorem calculateScore_correct_zero (q : Question) :
    calculateScore q q.correct 0 = 175 := by
  norm_num [calculateScore, Int.zero_tdiv]

theorem calculateScore_correct_slow (q : Question) {rt : Int} (h : 50000 ≤ rt) :
    calculateScore q q.correct rt = 125 := by
  have h0 : (0 : Int) ≤ rt := by linarith
  have he : rt.tdiv 1000 = rt / 1000 := Int.tdiv_eq_ediv h0 (by norm_num)
  have h50 : (50 : Int) ≤ rt / 1000 :=
    (Int.le_ediv_iff_mul_le (by norm_num)).mpr (by linarith)
  have hz : max 0 (50 - rt.tdiv 1000) = 0 := by
    rw [he]; exact max_eq_left (by linarith)
  simp only [calculateScore, ne_eq, not_true_eq_false, if_false]
  rw [hz]
  norm_num

theorem calculateScore_wrong (q : Question) {ans : Int} (rt : Int)
    (h : ans ≠ q.correct) : calculateScore q ans rt = 0 := by
  simp [calculateScore, h]

/-- The player-record update performed by `SubmitAnswer` for question `q`,
answer `ans`, response time `rt`. -/
def answerUpd (q : Question) (ans rt : Int) (p : Player) : Player :=
  { p with
    score := p.score + calculateScore q ans rt
    streak := if ans == q.correct then p.streak + 1 else 0 }

theorem applyAnswer_eq (l : Lobby) (pid : String) (ans rt : Int) {q : Question}
    (hq : l.currentQ = some q) :
    applyAnswer l pid ans rt =
      { l with players := updateFirst l.players pid (answerUpd q ans rt) } := by
  unfold applyAnswer answerUpd
  rw [hq]

theorem getPlayer_applyAnswer {l : Lobby} {pid : String} {q : Question} {p : Player}
    (hq : l.currentQ = some q) (hp : l.GetPlayer pid = some p) (ans rt : Int) :
    (applyAnswer l pid ans rt).GetPlayer pid = some (answerUpd q ans rt p) := by
  rw [applyAnswer_eq l pid ans rt hq]
  unfold Lobby.GetPlayer at hp ⊢
  show List.find? (fun x => x.id == pid)
      (updateFirst l.players pid (answerUpd q ans rt)) =
    some (answerUpd q ans rt p)
  exact updateFirst_find (answerUpd q ans rt) (fun x => rfl) hp

/-! ## Claim theorems: scoring and submission -/

/-- C1. For a lobby with an active question and a player present,
`SubmitAnswer` succeeds and applies the score/streak update; a correct
answer at `responseTimeMs = 0` adds exactly 175 and increments the streak,
a correct answer at `responseTimeMs ≥ 50000` adds exactly 125 and
increments the streak, and a wrong answer adds 0 and resets the streak. -/
theorem correct_answer_scoring (h : HubMap) (lid pid : String) (now : Int)
    (se : Bool) (l : Lobby) (q : Question) (p : Player)
    (hl : findLobby h lid = some l) (hq : l.currentQ = some q)
    (ha : l.IsQuestionActive now = true) (hp : l.GetPlayer pid = some p) :
    (∀ ans rt, SubmitAnswer h lid pid ans rt now se =
        .ok (setLobby h lid (applyAnswer l pid ans rt))) ∧
    (applyAnswer l pid q.correct 0).GetPlayer pid =
      some { p with score := p.score + 175, streak := p.streak + 1 } ∧
    (∀ rt, 50000 ≤ rt → (applyAnswer l pid q.correct rt).GetPlayer pid =
      some { p with score := p.score + 125, streak := p.streak + 1 }) ∧
    (∀ ans rt, ans ≠ q.correct → (applyAnswer l pid ans rt).GetPlayer pid =
      some { p with score := p.score, streak := 0 }) := by
  refine ⟨?_, ?_, ?_, ?_⟩
  · intro ans rt
    simp [SubmitAnswer, hl, submitLobby, ha, hp, Except.map]
  · rw [getPlayer_applyAnswer hq hp]
    simp [answerUpd, calculateScore_correct_zero]
  · intro rt hrt
    rw [getPlayer_applyAnswer hq hp]
    simp [answerUpd, calculateScore_correct_slow q hrt]
  · intro ans rt hne
    rw [getPlayer_applyAnswer hq hp]
    have : (ans == q.correct) = false := by simp [hne]
    simp [answerUpd, calculateScore_wrong q rt hne, this]

/-! Concrete fixtures used by the witnesses. -/

def qDemo : Question :=
  { id := "q1", text := "2+2?", options := ["3", "4"], correct := 1,
    category := "math" }

def pDemo : Player :=
  { id := "p1", username := "alice", score := 0, streak := 0, isReady := false }

def pDemo2 : Player :=
  { id := "p2", username := "bob", score := 0, streak := 0, isReady := false }

def lobbyActive : Lobby :=
  { id := "L1", name := "demo", players := [pDemo, pDemo2],
    state := .InProgress, currentQ := some qDemo, round := 1, maxRounds := 3,
    createdAt := 0, startedAt := some 0, questionEnd := some 15000,
    finishedAt := none }

def hubActive : HubMap := [("L1", lobbyActive)]

/-- Witness for `correct_answer_scoring` at a concrete active lobby. -/
theorem correct_answer_scoring_witness :
    SubmitAnswer hubActive "L1" "p1" 1 0 5 false =
      .ok (setLobby hubActive "L1" (applyAnswer lobbyActive "p1" 1 0)) ∧
    (applyAnswer lobbyActive "p1" qDemo.correct 0).GetPlayer "p1" =
      some { pDemo with score := pDemo.score + 175, streak := pDemo.streak + 1 } := by
  have hc := correct_answer_scoring hubActive "L1" "p1" 5 false lobbyActive
    qDemo pDemo rfl rfl (by decide) (by decide)
  exact ⟨hc.1 1 0, hc.2.1⟩

/-- C2. An answer submitted when no question is set, or when the current
time is at or past the question deadline, is rejected with
`ErrQuestionNotActive`; the operation returns before any mutation, so the
lobby (every player score and streak included) is unchanged — in this
embedding the error return carries no successor state. -/
theorem deadline_reject (h : HubMap) (lid pid : String) (ans rt now : Int)
    (se : Bool) (l : Lobby) (hl : findLobby h lid = some l)
    (hcond : l.currentQ = none ∨ ∃ d, l.questionEnd = some d ∧ d ≤ now) :
    SubmitAnswer h lid pid ans rt now se = .error .questionNotActive := by
  have hact : l.IsQuestionActive now = false := by
    unfold Lobby.IsQuestionActive
    rcases hcond with hq | ⟨d, hd, hdn⟩
    · rw [hq]
    · cases hcq : l.currentQ with
      | none => rfl
      | some q =>
          rw [hd]
          simp only [decide_eq_false_iff_not]
          omega
  simp [SubmitAnswer, hl, submitLobby, hact, Except.map]

def lobbyExpired : Lobby := { lobbyActive with questionEnd := some 10 }

/-- Witness for `deadline_reject`: submission at the exact deadline. -/
theorem deadline_reject_witness :
    SubmitAnswer [("L1", lobbyExpired)] "L1" "p1" 1 0 10 false =
      .error .questionNotActive :=
  deadline_reject _ "L1" "p1" 1 0 10 false lobbyExpired rfl
    (Or.inr ⟨10, rfl, le_refl 10⟩)

/-- C7 counterexample. At `responseTimeMs = -1000` (the transport layer
performs no sign check on `response_time`), `50 - (-1000)/1000 = 51`, so
the speed bonus exceeds its nominal maximum of 50 and the correct-answer
total is 176 > 175. -/
theorem speed_bonus_counterexample :
    calculateScore qDemo qDemo.correct (-1000) = 176 ∧
    ¬ calculateScore qDemo qDemo.correct (-1000) ≤ 175 := by decide

/-- C7 amended. For every nonnegative `responseTimeMs`, the speed bonus is
between 0 and 50, so the total for a correct answer is between 125 and
175. -/
theorem speed_bonus_bounds (q : Question) (rt : Int) (h0 : 0 ≤ rt) :
    (0 ≤ max 0 (50 - rt.tdiv 1000) ∧ max 0 (50 - rt.tdiv 1000) ≤ 50) ∧
    125 ≤ calculateScore q q.correct rt ∧
    calculateScore q q.correct rt ≤ 175 := by
  have htd : 0 ≤ rt.tdiv 1000 := Int.tdiv_nonneg h0 (by norm_num)
  have hub : max 0 (50 - rt.tdiv 1000) ≤ 50 := max_le (by norm_num) (by linarith)
  have hlb : (0 : Int) ≤ max 0 (50 - rt.tdiv 1000) := le_max_left 0 _
  refine ⟨⟨hlb, hub⟩, ?_, ?_⟩ <;>
  · simp only [calculateScore, ne_eq, not_true_eq_false, if_false]
    linarith

/-- Witness for `speed_bonus_bounds` at `responseTimeMs = 7000`. -/
theorem speed_bonus_bounds_witness :
    (0 ≤ max 0 (50 - Int.tdiv 7000 1000) ∧
      max 0 (50 - Int.tdiv 7000 1000) ≤ 50) ∧
    125 ≤ calculateScore qDemo qDemo.correct 7000 ∧
    calculateScore qDemo qDemo.correct 7000 ≤ 175 :=
  speed_bonus_bounds qDemo 7000 (by norm_num)

/-- C9. Every mutating orchestrator operation discards the outcome of the
`SaveLobby` persistence call (`saveErr`): the returned value and successor
state are identical whether persistence succeeds or fails. -/
theorem persistence_transparent (h : HubMap) (lid username pid : String)
    (ans rt now : Int) (q : Question) (t0 t1 : Int) (se1 se2 : Bool) :
    JoinLobby h lid username pid se1 = JoinLobby h lid username pid se2 ∧
    LeaveLobby h lid pid se1 = LeaveLobby h lid pid se2 ∧
    StartGame h lid q t0 t1 se1 = StartGame h lid q t0 t1 se2 ∧
    SubmitAnswer h lid pid ans rt now se1 = SubmitAnswer h lid pid ans rt now se2 :=
  ⟨rfl, rfl, rfl, rfl⟩

/-- C10. There is no once-per-question guard: a second submission by the
same player during the same question succeeds again; two correct
submissions at `responseTimeMs = 0` add 350 points and two streak
increments. -/
theorem double_submit (h : HubMap) (lid pid : String) (now1 now2 : Int)
    (se : Bool) (l : Lobby) (q : Question) (p : Player)
    (hl : findLobby h lid = some l) (hq : l.currentQ = some q)
    (ha1 : l.IsQuestionActive now1 = true)
    (ha2 : l.IsQuestionActive now2 = true)
    (hp : l.GetPlayer pid = some p) :
    SubmitAnswer h lid pid q.correct 0 now1 se =
      .ok (setLobby h lid (applyAnswer l pid q.correct 0)) ∧
    SubmitAnswer (setLobby h lid (applyAnswer l pid q.correct 0)) lid pid
        q.correct 0 now2 se =
      .ok (setLobby (setLobby h lid (applyAnswer l pid q.correct 0)) lid
            (applyAnswer (applyAnswer l pid q.correct 0) pid q.correct 0)) ∧
    (applyAnswer (applyAnswer l pid q.correct 0) pid q.correct 0).GetPlayer pid =
      some { p with score := p.score + 350, streak := p.streak + 2 } := by
  have hl1 := findLobby_setLobby hl (applyAnswer l pid q.correct 0)
  have hq1 : (applyAnswer l pid q.correct 0).currentQ = some q := by
    rw [(applyAnswer_fields l pid q.correct 0).2.1, hq]
  have ha1' : (applyAnswer l pid q.correct 0).IsQuestionActive now2 = true := by
    rw [applyAnswer_active]; exact ha2
  have hp1 := getPlayer_applyAnswer hq hp q.correct 0
  refine ⟨?_, ?_, ?_⟩
  · simp [SubmitAnswer, hl, submitLobby, ha1, hp, Except.map]
  · simp [SubmitAnswer, hl1, submitLobby, ha1', hp1, Except.map]
  · rw [getPlayer_applyAnswer hq1 hp1 q.correct 0]
    simp only [answerUpd, calculateScore_correct_zero, beq_self_eq_true,
      if_true, Option.some.injEq, Player.mk.injEq, true_and, and_true]
    omega

/-- Witness for `double_submit` at the concrete active lobby. -/
theorem double_submit_witness :
    (applyAnswer (applyAnswer lobbyActive "p1" qDemo.correct 0) "p1"
        qDemo.correct 0).GetPlayer "p1" =
      some { pDemo with score := pDemo.score + 350, streak := pDemo.streak + 2 } :=
  (double_submit hubActive "L1" "p1" 5 6 false lobbyActive qDemo pDemo rfl rfl
    (by decide) (by decide) (by decide)).2.2

/-! ## Claim theorem: joining a lobby -/

/-- C3. `JoinLobby` fails exactly when the lobby is absent (`NotFound`),
already holds 8 players (`Capacity`, checked first), or is past `Waiting`
(`StateConflict`); on success exactly one player is appended, the count
grows by one and stays at most 8; the hub is only rewritten on success. -/
theorem join_spec (h : HubMap) (lid username pid : String) (se : Bool) :
    (findLobby h lid = none →
      JoinLobby h lid username pid se = .error .lobbyNotFound) ∧
    (∀ l, findLobby h lid = some l →
      (8 ≤ l.players.length →
        JoinLobby h lid username pid se = .error .lobbyFull) ∧
      (l.players.length < 8 → l.state ≠ .Waiting →
        JoinLobby h lid username pid se = .error .gameInProgress) ∧
      (l.players.length < 8 → l.state = .Waiting →
        JoinLobby h lid username pid se =
          .ok (setLobby h lid
                 { l with players := l.players ++ [mkPlayer pid username] },
               { l with players := l.players ++ [mkPlayer pid username] },
               mkPlayer pid username) ∧
        (l.players ++ [mkPlayer pid username]).length = l.players.length + 1 ∧
        (l.players ++ [mkPlayer pid username]).length ≤ 8)) ∧
    ((∃ e, JoinLobby h lid username pid se = .error e) ↔
      (findLobby h lid = none ∨
       ∃ l, findLobby h lid = some l ∧
         (8 ≤ l.players.length ∨ l.state ≠ .Waiting))) := by
  refine ⟨?_, ?_, ?_⟩
  · intro hnone
    simp [JoinLobby, hnone]
  · intro l hl
    refine ⟨?_, ?_, ?_⟩
    · intro hfull
      simp [JoinLobby, hl, hfull]
    · intro hlt hst
      have hn8 : ¬ (8 ≤ l.players.length) := by omega
      simp [JoinLobby, hl, hn8, hst]
    · intro hlt hst
      have hn8 : ¬ (8 ≤ l.players.length) := by omega
      refine ⟨by simp [JoinLobby, hl, hn8, hst, Lobby.AddPlayer], by simp, by
        simp only [List.length_append, List.length_cons, List.length_nil]
        omega⟩
  · constructor
    · rintro ⟨e, he⟩
      cases hn : findLobby h lid with
      | none => exact Or.inl rfl
      | some l =>
          refine Or.inr ⟨l, rfl, ?_⟩
          by_cases h8 : 8 ≤ l.players.length
          · exact Or.inl h8
          · by_cases hw : l.state = .Waiting
            · exfalso
              simp [JoinLobby, hn, h8, hw, Lobby.AddPlayer] at he
            · exact Or.inr hw
    · rintro (hn | ⟨l, hl, h8 | hw⟩)
      · exact ⟨.lobbyNotFound, by simp [JoinLobby, hn]⟩
      · exact ⟨.lobbyFull, by simp [JoinLobby, hl, h8]⟩
      · by_cases h8 : 8 ≤ l.players.length
        · exact ⟨.lobbyFull, by simp [JoinLobby, hl, h8]⟩
        · exact ⟨.gameInProgress, by simp [JoinLobby, hl, h8, hw]⟩

def lobbyWaiting : Lobby :=
  { id := "LW", name := "w", players := [pDemo], state := .Waiting,
    currentQ := none, round := 0, maxRounds := 3, createdAt := 0,
    startedAt := none, questionEnd := none, finishedAt := none }

/-- Witness for `join_spec`: a successful join of a waiting lobby. -/
theorem join_spec_witness :
    JoinLobby [("LW", lobbyWaiting)] "LW" "bob" "p9" false =
      .ok (setLobby [("LW", lobbyWaiting)] "LW"
             { lobbyWaiting with
                 players := lobbyWaiting.players ++ [mkPlayer "p9" "bob"] },
           { lobbyWaiting with
               players := lobbyWaiting.players ++ [mkPlayer "p9" "bob"] },
           mkPlayer "p9" "bob") ∧
    (lobbyWaiting.players ++ [mkPlayer "p9" "bob"]).length =
      lobbyWaiting.players.length + 1 ∧
    (lobbyWaiting.players ++ [mkPlayer "p9" "bob"]).length ≤ 8 :=
  ((join_spec [("LW", lobbyWaiting)] "LW" "bob" "p9" false).2.1
    lobbyWaiting rfl).2.2 (by decide) rfl

/-! ## Reachable lobby states

`Step l l2` enumerates every mutation the orchestrator performs on one
lobby's state, with guards mirroring the checks (or the call-site
conditions) of the source:

* `join` — the success path of `JoinLobby` (the failure paths leave the
  lobby unchanged);
* `leave` — `LeaveLobby` (removing an absent player is the identity);
* `startHalf` / `startFull` — `StartGame` after its `CanStart` check:
  `Lobby.StartGame` alone (the state observable while `game_started` is
  broadcast) and composed with the first `startNextQuestion`, exactly as
  the source calls them back to back;
* `submit` — `SubmitAnswer`; the error paths are the identity;
* `endQ` — the state part of `endQuestion`, which fires 15 s after a
  `SetQuestion` and therefore only while a question is set (nothing else
  clears `CurrentQ` in between, and each `SetQuestion` schedules exactly
  one `endQuestion`);
* `nextQ` — `startNextQuestion` on its own; the source calls it only
  right after `Lobby.StartGame` (state `InProgress`) or right after
  `endQuestion` cleared the question and advanced the round (state
  `InProgress` or `Finished`), so its input is never `Waiting` and never
  carries a question. -/
inductive Step : Lobby → Lobby → Prop where
  | join (l : Lobby) (username pid : String)
      (hcap : l.players.length < 8) (hst : l.state = .Waiting) :
      Step l (l.AddPlayer username pid).1
  | leave (l : Lobby) (pid : String) :
      Step l { l with players := removeFirst l.players pid }
  | startHalf (l : Lobby) (t : Int) (hcs : l.CanStart = true) :
      Step l (l.StartGameL t)
  | startFull (l : Lobby) (q : Question) (t0 t1 : Int)
      (hcs : l.CanStart = true) :
      Step l (startNextQuestion (l.StartGameL t0) q t1)
  | submit (l : Lobby) (pid : String) (answer rt now : Int) :
      Step l ((submitLobby l pid answer rt now).toOption.getD l)
  | endQ (l : Lobby) (q : Question) (hq : l.currentQ = some q) :
      Step l (endQuestion l)
  | nextQ (l : Lobby) (q : Question) (t : Int)
      (hst : l.state ≠ .Waiting) (hq : l.currentQ = none) :
      Step l (startNextQuestion l q t)

/-- A lobby state reachable from `NewLobby` through orchestrator steps. -/
inductive Reachable : Lobby → Prop where
  | init (id name : String) (maxRounds now : Int) :
      Reachable (NewLobby id name maxRounds now)
  | step {l l2 : Lobby} : Reachable l → Step l l2 → Reachable l2

/-- The combined state invariant: a `Waiting` lobby has no question, and a
`Finished` lobby has no question and a round counter past `maxRounds`. -/
def Inv (l : Lobby) : Prop :=
  (l.state = .Waiting → l.currentQ = none) ∧
  (l.state = .Finished → l.currentQ = none ∧ l.maxRounds < l.round)

theorem mem_removeFirst {ps : List Player} {pid : String} {p : Player}
    (h : p ∈ removeFirst ps pid) : p ∈ ps := by
  induction ps with
  | nil => simp [removeFirst] at h
  | cons a rest ih =>
      by_cases ha : (a.id == pid) = true
      · simp only [removeFirst, ha, if_true] at h
        exact List.mem_cons_of_mem a h
      · simp only [removeFirst, ha] at h
        rcases List.mem_cons.mp h with h1 | h2
        · exact h1 ▸ List.mem_cons_self a rest
        · exact List.mem_cons_of_mem a (ih h2)

theorem mem_updateFirst {ps : List Player} {pid : String} (f : Player → Player)
    (hf : ∀ x, (f x).id = x.id) {p : Player} (h : p ∈ updateFirst ps pid f) :
    ∃ p0 ∈ ps, p0.id = p.id := by
  induction ps with
  | nil => simp [updateFirst] at h
  | cons a rest ih =>
      by_cases ha : (a.id == pid) = true
      · simp only [updateFirst, ha, if_true] at h
        rcases List.mem_cons.mp h with h1 | h2
        · exact ⟨a, List.mem_cons_self a rest, by rw [h1]; exact (hf a).symm⟩
        · exact ⟨p, List.mem_cons_of_mem a h2, rfl⟩
      · simp only [updateFirst, ha] at h
        rcases List.mem_cons.mp h with h1 | h2
        · exact ⟨a, List.mem_cons_self a rest, by rw [h1]⟩
        · obtain ⟨p0, hp0, hid⟩ := ih h2
          exact ⟨p0, List.mem_cons_of_mem a hp0, hid⟩

theorem applyAnswer_none {l : Lobby} {pid : String} {a rt : Int}
    (h : l.currentQ = none) : applyAnswer l pid a rt = l := by
  unfold applyAnswer
  rw [h]

theorem mem_applyAnswer {l : Lobby} {pid : String} {a rt : Int} {p : Player}
    (hp : p ∈ (applyAnswer l pid a rt).players) :
    ∃ p0 ∈ l.players, p0.id = p.id := by
  cases hq : l.currentQ with
  | none =>
      rw [applyAnswer_none hq] at hp
      exact ⟨p, hp, rfl⟩
  | some q =>
      rw [applyAnswer_eq l pid a rt hq] at hp
      have hp2 : p ∈ updateFirst l.players pid (answerUpd q a rt) := hp
      exact mem_updateFirst (answerUpd q a rt) (fun x => rfl) hp2

theorem submitResult_fields (l : Lobby) (pid : String) (a rt now : Int) :
    ((submitLobby l pid a rt now).toOption.getD l).state = l.state ∧
    ((submitLobby l pid a rt now).toOption.getD l).currentQ = l.currentQ ∧
    ((submitLobby l pid a rt now).toOption.getD l).round = l.round ∧
    ((submitLobby l pid a rt now).toOption.getD l).maxRounds = l.maxRounds ∧
    (∀ p ∈ ((submitLobby l pid a rt now).toOption.getD l).players,
      ∃ p0 ∈ l.players, p0.id = p.id) := by
  unfold submitLobby
  split
  · exact ⟨rfl, rfl, rfl, rfl, fun p hp => ⟨p, hp, rfl⟩⟩
  · split
    · exact ⟨rfl, rfl, rfl, rfl, fun p hp => ⟨p, hp, rfl⟩⟩
    · simp only [Except.toOption, Option.getD]
      exact ⟨(applyAnswer_fields l pid a rt).1,
        (applyAnswer_fields l pid a rt).2.1,
        (applyAnswer_fields l pid a rt).2.2.2.1,
        (applyAnswer_fields l pid a rt).2.2.2.2,
        fun p hp => mem_applyAnswer hp⟩

theorem startNextQuestion_inv (m : Lobby) (q : Question) (t : Int)
    (hst : m.state ≠ .Waiting) (hq : m.currentQ = none)
    (hF : m.state = .Finished → m.maxRounds < m.round) :
    Inv (startNextQuestion m q t) := by
  unfold startNextQuestion
  split
  · next hb =>
      exact ⟨fun h => by simp [endGame] at h,
             fun _ => ⟨by simpa [endGame] using hq, by simpa [endGame] using hb⟩⟩
  · next hb =>
      refine ⟨fun h => ?_, fun h => ?_⟩
      · simp only [Lobby.SetQuestion] at h
        exact absurd h hst
      · simp only [Lobby.SetQuestion] at h
        exact absurd (hF h) hb

theorem step_inv {l l2 : Lobby} (hinv : Inv l) (hs : Step l l2) : Inv l2 := by
  obtain ⟨hW, hF⟩ := hinv
  cases hs with
  | join u pid hcap hst =>
      exact ⟨fun _ => by simpa [Lobby.AddPlayer] using hW hst,
             fun h => by simp [Lobby.AddPlayer, hst] at h⟩
  | leave pid =>
      exact ⟨fun h => hW h, fun h => hF h⟩
  | startHalf t hcs =>
      exact ⟨fun h => by simp [Lobby.StartGameL] at h,
             fun h => by simp [Lobby.StartGameL] at h⟩
  | startFull q t0 t1 hcs =>
      simp only [Lobby.CanStart, Bool.and_eq_true, decide_eq_true_eq,
        beq_iff_eq] at hcs
      exact startNextQuestion_inv (l.StartGameL t0) q t1
        (by simp [Lobby.StartGameL])
        (by simpa [Lobby.StartGameL] using hW hcs.2)
        (by simp [Lobby.StartGameL])
  | submit pid a rt now =>
      obtain ⟨f1, f2, f3, f4, _⟩ := submitResult_fields l pid a rt now
      exact ⟨fun h => by rw [f2]; exact hW (f1 ▸ h),
             fun h => by rw [f2, f3, f4]; exact hF (f1 ▸ h)⟩
  | endQ q hq =>
      refine ⟨fun _ => rfl, fun h => ⟨rfl, ?_⟩⟩
      show l.maxRounds < l.round + 1
      by_cases hb : l.maxRounds < l.round + 1
      · exact hb
      · exfalso
        have hstate : (endQuestion l).state = l.state := by
          simp only [endQuestion, Lobby.NextRound]
          rw [if_neg hb]
        rw [hstate] at h
        exact absurd hq (by rw [(hF h).1]; simp)
  | nextQ q t hst hq =>
      exact startNextQuestion_inv l q t hst hq (fun h => (hF h).2)

theorem reachable_inv {l : Lobby} (h : Reachable l) : Inv l := by
  induction h with
  | init id name mr t => exact ⟨fun _ => rfl, fun h => by simp [NewLobby] at h⟩
  | step hr hs ih => exact step_inv ih hs

/-! ## Claim theorems: state invariants -/

/-- C4. In every reachable lobby state, `state = Waiting` implies
`currentQuestion = null`: a lobby is created `Waiting` with no question
and the question cycle only ever sets a question on a non-`Waiting`
lobby. -/
theorem waiting_implies_no_question (l : Lobby) (h : Reachable l)
    (hw : l.state = .Waiting) : l.currentQ = none :=
  (reachable_inv h).1 hw

/-- Witness for `waiting_implies_no_question` on a freshly created lobby. -/
theorem waiting_implies_no_question_witness :
    (NewLobby "L0" "fresh" 3 0).currentQ = none :=
  waiting_implies_no_question _ (Reachable.init "L0" "fresh" 3 0) rfl

/-- C5. `Finished` is terminal: in a reachable `Finished` lobby no
question is ever active, so `SubmitAnswer` is rejected; `StartGame` is
rejected; and every orchestrator step from it keeps the state `Finished`,
keeps the round counter unchanged, and preserves the score and streak of
every remaining player. -/
theorem finished_terminal (l : Lobby) (hr : Reachable l)
    (hf : l.state = .Finished) :
    (∀ pid ans rt now, submitLobby l pid ans rt now =
        .error .questionNotActive) ∧
    l.CanStart = false ∧
    (∀ h lid q t0 t1 se, findLobby h lid = some l →
        StartGame h lid q t0 t1 se = .error .cannotStartGame) ∧
    (∀ l2, Step l l2 → l2.state = .Finished ∧ l2.round = l.round ∧
        ∀ p ∈ l2.players, ∃ p0 ∈ l.players,
          p0.id = p.id ∧ p0.score = p.score ∧ p0.streak = p.streak) := by
  have hinv := reachable_inv hr
  have hqn : l.currentQ = none := (hinv.2 hf).1
  have hmr : l.maxRounds < l.round := (hinv.2 hf).2
  have hact : ∀ now, l.IsQuestionActive now = false := fun now => by
    unfold Lobby.IsQuestionActive
    rw [hqn]
  have hsub : ∀ pid ans rt now,
      submitLobby l pid ans rt now = .error .questionNotActive := by
    intro pid ans rt now
    simp [submitLobby, hact]
  have hcs : l.CanStart = false := by
    simp [Lobby.CanStart, hf]
  refine ⟨hsub, hcs, ?_, ?_⟩
  · intro h lid q t0 t1 se hl
    simp [StartGame, hl, hcs]
  · intro l2 hstep
    cases hstep with
    | join u pid hcap hst => simp [hf] at hst
    | leave pid =>
        exact ⟨hf, rfl, fun p hp => ⟨p, mem_removeFirst hp, rfl, rfl, rfl⟩⟩
    | startHalf t hcs2 => rw [hcs] at hcs2; cases hcs2
    | startFull q t0 t1 hcs2 => rw [hcs] at hcs2; cases hcs2
    | submit pid a rt now =>
        rw [hsub pid a rt now]
        exact ⟨hf, rfl, fun p hp => ⟨p, hp, rfl, rfl, rfl⟩⟩
    | endQ q hq => rw [hqn] at hq; cases hq
    | nextQ q t hst hq =>
        have hend : startNextQuestion l q t = endGame l t := by
          unfold startNextQuestion
          rw [if_pos hmr]
        rw [hend]
        exact ⟨rfl, rfl, fun p hp => ⟨p, hp, rfl, rfl, rfl⟩⟩

/-- A concrete reachable `Finished` lobby: `maxRounds = 0`, two joins,
then `StartGame`, whose first `startNextQuestion` immediately ends the
game. -/
def lobbyFinishedW : Lobby :=
  startNextQuestion
    ((((NewLobby "LF" "f" 0 0).AddPlayer "alice" "p1").1.AddPlayer
        "bob" "p2").1.StartGameL 3) qDemo 4

theorem lobbyFinishedW_reachable : Reachable lobbyFinishedW :=
  Reachable.step
    (Reachable.step
      (Reachable.step (Reachable.init "LF" "f" 0 0)
        (Step.join _ "alice" "p1" (by decide) rfl))
      (Step.join _ "bob" "p2" (by decide) rfl))
    (Step.startFull _ qDemo 3 4 (by decide))

/-- Witness for `finished_terminal` on the concrete finished lobby. -/
theorem finished_terminal_witness :
    submitLobby lobbyFinishedW "p1" 1 0 100 = .error .questionNotActive ∧
    lobbyFinishedW.CanStart = false := by
  have hc := finished_terminal lobbyFinishedW lobbyFinishedW_reachable
    (by decide)
  exact ⟨hc.1 "p1" 1 0 100, hc.2.1⟩

/-! ## Leaderboard: the bubble sort of `calculateLeaderboard`

`calculateLeaderboard` (`game_service.go` lines 272-285) copies the player
slice and runs the classic in-place bubble sort: outer index `i` from `0`
to `n-2`, inner sweep `j` from `0` to `n-i-2`, swapping adjacent players
when `players[j].Score < players[j+1].Score`.  `passK k` is one such sweep
performing exactly `k` adjacent compare-swaps from the front (the element
carried rightward is the comparison loser, exactly as the in-place swap
leaves it); `bubbleRounds` runs the sweeps with bounds `n-1, n-2, ..., 1`,
matching the shrinking inner loop. -/
def passK : Nat → List Player → List Player
  | 0, l => l
  | k + 1, l =>
      match l with
      | [] => []
      | [p] => [p]
      | p :: q :: rest =>
          if p.score < q.score then q :: passK k (p :: rest)
          else p :: passK k (q :: rest)

def bubbleRounds : Nat → List Player → List Player
  | 0, l => l
  | k + 1, l => bubbleRounds k (passK (k + 1) l)

/-- `GameService.calculateLeaderboard` (`game_service.go` lines 272-285). -/
def calculateLeaderboard (l : Lobby) : List Player :=
  bubbleRounds (l.players.length - 1) l.players

/-- Sorted by score, highest first. -/
def sortedDesc (l : List Player) : Prop :=
  l.Pairwise (fun a b => b.score ≤ a.score)

theorem passK_perm (k : Nat) (l : List Player) : List.Perm (passK k l) l := by
  induction k generalizing l with
  | zero => exact List.Perm.refl l
  | succ k ih =>
      cases l with
      | nil => exact List.Perm.nil
      | cons p t =>
          cases t with
          | nil => exact List.Perm.refl _
          | cons q rest =>
              show List.Perm (if p.score < q.score then q :: passK k (p :: rest)
                    else p :: passK k (q :: rest)) (p :: q :: rest)
              split
              · exact (List.Perm.cons q (ih (p :: rest))).trans
                  (List.Perm.swap p q rest)
              · exact List.Perm.cons p (ih (q :: rest))

theorem passK_filter (k : Nat) (l : List Player) (s : Int) :
    (passK k l).filter (fun p => p.score == s) =
      l.filter (fun p => p.score == s) := by
  induction k generalizing l with
  | zero => rfl
  | succ k ih =>
      cases l with
      | nil => rfl
      | cons p t =>
          cases t with
          | nil => rfl
          | cons q rest =>
              show (if p.score < q.score then q :: passK k (p :: rest)
                    else p :: passK k (q :: rest)).filter
                      (fun p => p.score == s) = _
              split
              · next hlt =>
                  by_cases hp : (p.score == s) = true <;>
                    by_cases hq : (q.score == s) = true
                  · exfalso
                    simp only [beq_iff_eq] at hp hq
                    omega
                  · simp [List.filter_cons, hp, hq, ih (p :: rest)]
                  · simp [List.filter_cons, hp, hq, ih (p :: rest)]
                  · simp [List.filter_cons, hp, hq, ih (p :: rest)]
              · simp [List.filter_cons, ih (q :: rest)]

theorem passK_append (k : Nat) (P S : List Player) (hP : P.length = k + 1) :
    passK k (P ++ S) = passK k P ++ S := by
  induction k generalizing P with
  | zero => rfl
  | succ k ih =>
      cases P with
      | nil => simp at hP
      | cons p t =>
          cases t with
          | nil => simp at hP
          | cons q P2 =>
              have hl : (p :: P2).length = k + 1 := by
                simp only [List.length_cons] at hP ⊢
                omega
              have hl2 : (q :: P2).length = k + 1 := by
                simp only [List.length_cons] at hP ⊢
                omega
              show (if p.score < q.score then q :: passK k (p :: (P2 ++ S))
                    else p :: passK k (q :: (P2 ++ S))) =
                   (if p.score < q.score then q :: passK k (p :: P2)
                    else p :: passK k (q :: P2)) ++ S
              split
              · rw [show p :: (P2 ++ S) = (p :: P2) ++ S from rfl,
                   ih (p :: P2) hl, List.cons_append]
              · rw [show q :: (P2 ++ S) = (q :: P2) ++ S from rfl,
                   ih (q :: P2) hl2, List.cons_append]

/-- One full-length sweep moves a minimal-score element to the last
position. -/
theorem passK_last_min : ∀ (n : Nat) (P : List Player), P.length = n + 1 →
    ∃ Q m, passK n P = Q ++ [m] ∧ (∀ x ∈ P, m.score ≤ x.score) ∧
      Q.length = n := by
  intro n
  induction n with
  | zero =>
      intro P hP
      match P, hP with
      | [p], _ =>
          exact ⟨[], p, rfl, fun x hx => by
            rcases List.mem_singleton.mp hx with h
            rw [h], rfl⟩
  | succ n ih =>
      intro P hP
      match P, hP with
      | p :: q :: rest, hP =>
          have hrest : (rest : List Player).length = n := by
            simp only [List.length_cons] at hP
            omega
          by_cases hlt : p.score < q.score
          · obtain ⟨Q, m, heq, hmin, hQ⟩ :=
              ih (p :: rest) (by simp [hrest])
            refine ⟨q :: Q, m, ?_, ?_, by simp [hQ]⟩
            · show (if p.score < q.score then q :: passK n (p :: rest)
                    else p :: passK n (q :: rest)) = (q :: Q) ++ [m]
              rw [if_pos hlt, heq, List.cons_append]
            · intro x hx
              rcases List.mem_cons.mp hx with h1 | hx2
              · rw [h1]
                exact hmin p (List.mem_cons_self p rest)
              · rcases List.mem_cons.mp hx2 with h2 | hx3
                · rw [h2]
                  have := hmin p (List.mem_cons_self p rest)
                  omega
                · exact hmin x (List.mem_cons_of_mem p hx3)
          · obtain ⟨Q, m, heq, hmin, hQ⟩ :=
              ih (q :: rest) (by simp [hrest])
            refine ⟨p :: Q, m, ?_, ?_, by simp [hQ]⟩
            · show (if p.score < q.score then q :: passK n (p :: rest)
                    else p :: passK n (q :: rest)) = (p :: Q) ++ [m]
              rw [if_neg hlt, heq, List.cons_append]
            · intro x hx
              rcases List.mem_cons.mp hx with h1 | hx2
              · rw [h1]
                have := hmin q (List.mem_cons_self q rest)
                omega
              · rcases List.mem_cons.mp hx2 with h2 | hx3
                · rw [h2]
                  exact hmin q (List.mem_cons_self q rest)
                · exact hmin x (List.mem_cons_of_mem q hx3)

theorem bubbleRounds_perm (k : Nat) (l : List Player) :
    List.Perm (bubbleRounds k l) l := by
  induction k generalizing l with
  | zero => exact List.Perm.refl l
  | succ k ih => exact (ih (passK (k + 1) l)).trans (passK_perm (k + 1) l)

theorem bubbleRounds_filter (k : Nat) (l : List Player) (s : Int) :
    (bubbleRounds k l).filter (fun p => p.score == s) =
      l.filter (fun p => p.score == s) := by
  induction k generalizing l with
  | zero => rfl
  | succ k ih =>
      show (bubbleRounds k (passK (k + 1) l)).filter (fun p => p.score == s) = _
      rw [ih (passK (k + 1) l), passK_filter]

theorem bubbleRounds_sorted : ∀ (k : Nat) (P S : List Player),
    P.length = k + 1 → sortedDesc S →
    (∀ p ∈ P, ∀ s ∈ S, s.score ≤ p.score) →
    sortedDesc (bubbleRounds k (P ++ S)) := by
  intro k
  induction k with
  | zero =>
      intro P S hP hS hPS
      match P, hP with
      | [p], _ =>
          exact List.Pairwise.cons
            (fun s hs => hPS p (List.mem_singleton_self p) s hs) hS
  | succ k ih =>
      intro P S hP hS hPS
      have happ : passK (k + 1) (P ++ S) = passK (k + 1) P ++ S :=
        passK_append (k + 1) P S hP
      obtain ⟨Q, m, hfull, hmin, hQ⟩ := passK_last_min (k + 1) P hP
      have hperm : List.Perm (Q ++ [m]) P := hfull ▸ passK_perm (k + 1) P
      have hmP : m ∈ P :=
        hperm.subset (List.mem_append_right Q (List.mem_singleton_self m))
      show sortedDesc (bubbleRounds k (passK (k + 1) (P ++ S)))
      rw [happ, hfull, List.append_assoc]
      refine ih Q (m :: S) hQ ?_ ?_
      · exact List.Pairwise.cons (fun s hs => hPS m hmP s hs) hS
      · intro p hpQ t ht
        have hpP : p ∈ P := hperm.subset (List.mem_append_left [m] hpQ)
        rcases List.mem_cons.mp ht with h1 | h2
        · rw [h1]
          exact hmin p hpP
        · exact hPS p hpP t h2

/-! ## Claim theorem: the leaderboard -/

/-- C6. The leaderboard is a permutation of the player list, sorted by
score descending; the sort is stable (for every score value the players
holding it appear in join order, expressed as filter preservation); and
the head — the winner `endGame` reports — holds a maximal score and is
the earliest-joined player with that score. -/
theorem leaderboard_spec (l : Lobby) :
    List.Perm (calculateLeaderboard l) l.players ∧
    sortedDesc (calculateLeaderboard l) ∧
    (∀ s : Int, (calculateLeaderboard l).filter (fun p => p.score == s) =
        l.players.filter (fun p => p.score == s)) ∧
    (∀ w ws, calculateLeaderboard l = w :: ws →
        (∀ p ∈ l.players, p.score ≤ w.score) ∧
        l.players.filter (fun p => p.score == w.score) =
          w :: ws.filter (fun p => p.score == w.score)) := by
  have hperm : List.Perm (calculateLeaderboard l) l.players := bubbleRounds_perm _ _
  have hsorted : sortedDesc (calculateLeaderboard l) := by
    cases hps : l.players with
    | nil =>
        unfold calculateLeaderboard
        rw [hps]
        exact List.Pairwise.nil
    | cons p rest =>
        unfold calculateLeaderboard
        rw [hps]
        have hlen : (p :: rest).length - 1 = rest.length := by simp
        rw [hlen]
        have hs := bubbleRounds_sorted rest.length (p :: rest) []
          (by simp) List.Pairwise.nil (by simp)
        simpa using hs
  have hfilter : ∀ s : Int,
      (calculateLeaderboard l).filter (fun p => p.score == s) =
        l.players.filter (fun p => p.score == s) :=
    fun s => bubbleRounds_filter (l.players.length - 1) l.players s
  refine ⟨hperm, hsorted, hfilter, ?_⟩
  intro w ws hw
  constructor
  · intro p hpP
    have hpL : p ∈ w :: ws := by
      rw [← hw]
      exact hperm.mem_iff.mpr hpP
    rcases List.mem_cons.mp hpL with h1 | h2
    · rw [h1]
    · have hsw := hsorted
      rw [hw] at hsw
      exact (List.pairwise_cons.mp hsw).1 p h2
  · have hfw := hfilter w.score
    rw [hw, List.filter_cons] at hfw
    simp only [beq_self_eq_true, if_true] at hfw
    exact hfw.symm

def pA : Player :=
  { id := "a", username := "ann", score := 5, streak := 0, isReady := false }

def pB : Player :=
  { id := "b", username := "ben", score := 9, streak := 0, isReady := false }

def pC : Player :=
  { id := "c", username := "cam", score := 9, streak := 0, isReady := false }

def lobbyBoard : Lobby :=
  { id := "LB", name := "board", players := [pA, pB, pC], state := .Finished,
    currentQ := none, round := 4, maxRounds := 3, createdAt := 0,
    startedAt := some 0, questionEnd := none, finishedAt := some 9 }

/-- Witness for `leaderboard_spec`: scores `[5, 9, 9]` sort to
`[pB, pC, pA]`, the tie keeping join order, the winner `pB` being the
earliest-joined maximal scorer. -/
theorem leaderboard_spec_witness :
    (∀ p ∈ lobbyBoard.players, p.score ≤ pB.score) ∧
    lobbyBoard.players.filter (fun p => p.score == pB.score) =
      pB :: [pC, pA].filter (fun p => p.score == pB.score) :=
  (leaderboard_spec lobbyBoard).2.2.2 pB [pC, pA] (by decide)

/-! ## Hub broadcast

The `broadcast` arm of `LobbyHub.run` (`hub.go` lines 410-434).  A
registered connection's bounded `Send` channel is modelled by its buffer
capacity and current contents; the non-blocking
`select { case client.Send <- message: default: ... }` succeeds exactly
when the buffer has free space.  The Go map holds clients with distinct
ids; its (nondeterministic) iteration order is fixed as the list order,
which the claim does not depend on. -/
structure WSClient where
  id : String
  lobbyID : String
  playerID : String
  capacity : Nat
  send : List String
  closed : Bool
deriving DecidableEq, Repr

/-- Whether the non-blocking channel send succeeds. -/
def hasSpace (c : WSClient) : Bool := c.send.length < c.capacity

/-- A successful `client.Send <- message`. -/
def enqueue (c : WSClient) (msg : String) : WSClient :=
  { c with send := c.send ++ [msg] }

/-- One `broadcast` iteration of `LobbyHub.run`: phase 1 (read lock)
enqueues to every client whose channel has space and collects the ids of
full ones in `clientsToRemove`; phase 2 (write lock) closes and deletes
every collected id.  Returns the remaining registry and the removed,
closed clients. -/
def broadcastRun (clients : List WSClient) (msg : String) :
    List WSClient × List WSClient :=
  let afterSend := clients.map (fun c => if hasSpace c then enqueue c msg else c)
  let clientsToRemove :=
    (clients.filter (fun c => ¬ hasSpace c)).map (fun c => c.id)
  (afterSend.filter (fun c => ¬ c.id ∈ clientsToRemove),
   (afterSend.filter (fun c => c.id ∈ clientsToRemove)).map
     (fun c => { c with closed := true }))

theorem broadcast_phases (msg : String) (R : List String) :
    ∀ (clients : List WSClient),
    (∀ c ∈ clients, c.id ∈ R ↔ hasSpace c = false) →
    ((clients.map (fun c => if hasSpace c then enqueue c msg else c)).filter
        (fun c => ¬ c.id ∈ R) =
      (clients.filter (fun c => hasSpace c)).map (fun c => enqueue c msg)) ∧
    (((clients.map (fun c => if hasSpace c then enqueue c msg else c)).filter
        (fun c => c.id ∈ R)).map (fun c => { c with closed := true }) =
      (clients.filter (fun c => ¬ hasSpace c)).map
        (fun c => { c with closed := true })) := by
  intro clients
  induction clients with
  | nil =>
      intro _
      simp
  | cons c cs ih =>
      intro hR
      obtain ⟨ih1, ih2⟩ := ih (fun x hx => hR x (List.mem_cons_of_mem c hx))
      have hc := hR c (List.mem_cons_self c cs)
      by_cases hs : hasSpace c = true
      · have hnotin : ¬ c.id ∈ R := fun hmem => by
          rw [hc.mp hmem] at hs
          cases hs
        have hide : (enqueue c msg).id = c.id := rfl
        simp only [decide_not] at ih1 ih2
        simp [List.filter_cons, hs, hide, hnotin, ih1, ih2]
      · have hin : c.id ∈ R := hc.mpr (by simpa using hs)
        simp only [decide_not] at ih1 ih2
        simp [List.filter_cons, hs, hin, ih1, ih2]

/-- C8. In one broadcast step over a registry of distinct-id connections,
the payload is enqueued exactly once to every connection with queue
space, exactly the full-queue connections are removed and closed, and no
connection with space is removed. -/
theorem broadcast_spec (clients : List WSClient) (msg : String)
    (hnd : (clients.map (fun c => c.id)).Nodup) :
    (broadcastRun clients msg).1 =
      (clients.filter (fun c => hasSpace c)).map (fun c => enqueue c msg) ∧
    (broadcastRun clients msg).2 =
      (clients.filter (fun c => ¬ hasSpace c)).map
        (fun c => { c with closed := true }) := by
  have hinj : ∀ x ∈ clients, ∀ y ∈ clients, x.id = y.id → x = y :=
    List.inj_on_of_nodup_map hnd
  have hR : ∀ c ∈ clients,
      (c.id ∈ (clients.filter (fun c => ¬ hasSpace c)).map (fun c => c.id) ↔
       hasSpace c = false) := by
    intro c hc
    constructor
    · intro hmem
      obtain ⟨d, hdmem, hdid⟩ := List.mem_map.mp hmem
      have hd := List.mem_filter.mp hdmem
      have hdc : d = c := hinj d hd.1 c hc hdid
      rw [← hdc]
      simpa using hd.2
    · intro hns
      exact List.mem_map.mpr ⟨c, List.mem_filter.mpr ⟨hc, by simp [hns]⟩, rfl⟩
  exact broadcast_phases msg _ clients hR

def cGood : WSClient :=
  { id := "c1", lobbyID := "L1", playerID := "p1", capacity := 2,
    send := [], closed := false }

def cFull : WSClient :=
  { id := "c2", lobbyID := "L1", playerID := "p2", capacity := 1,
    send := ["old"], closed := false }

/-- Witness for `broadcast_spec`: one connection with space receives the
payload; the saturated one is evicted and closed. -/
theorem broadcast_spec_witness :
    (broadcastRun [cGood, cFull] "evt").1 = [enqueue cGood "evt"] ∧
    (broadcastRun [cGood, cFull] "evt").2 = [{ cFull with closed := true }] := by
  have hb := broadcast_spec [cGood, cFull] "evt" (by decide)
  exact ⟨hb.1.trans (by decide), hb.2.trans (by decide)⟩

end Buildprize
